import Mathlib

/-!
Verification of the qdrant repository fragments: the API-key authorization
gate (actix HTTP adapter and tonic gRPC adapter) and the typed memory-map
view layer (`mmap_type.rs`, `madvise.rs`).

Byte strings are modelled as `List Nat` with each byte below 256 where it
matters. Requests are modelled by the parts the gate can observe: method,
header map, plus path and body (which the gate must not observe).
-/

namespace Qdrant

/-- Byte strings (header values, secrets, file contents). -/
abbrev Bytes := List Nat

/-! ### Constant-time comparison (`constant_time_eq` crate)

The crate computes `a.len() == b.len()` and then folds `tmp |= a[i] ^ b[i]`
over the zipped bytes, returning equality iff the accumulated `tmp` is zero. -/

/-- Accumulated or-of-xors from the `constant_time_eq` crate: fold of
`tmp |= x ^ y` over the zipped byte strings, starting from zero. -/
def constant_time_ne (a b : Bytes) : Nat :=
  (List.zipWith (fun x y => x ^^^ y) a b).foldl (fun tmp x => tmp ||| x) 0

/-- Comparison entry point of the `constant_time_eq` crate: equal lengths and
zero accumulated difference. -/
def constant_time_eq (a b : Bytes) : Bool :=
  a.length == b.length && constant_time_ne a b == 0

/-! ### Header decoding (`http` crate)

`HeaderValue::to_str` succeeds iff every byte is visible ASCII
(32..=126) or horizontal tab; on success the returned string's bytes are
exactly the header value's bytes. -/

/-- Byte test used by `HeaderValue::to_str` in the `http` crate. -/
def is_visible_ascii (b : Nat) : Bool := (32 ≤ b && b < 127) || b == 9

/-- Model of `HeaderValue::to_str`: validates the bytes, preserving them. -/
def header_value_to_str (v : Bytes) : Option Bytes :=
  if v.all is_visible_ascii then some v else none

/-! ### Requests -/

/-- Request methods. The gate only ever compares against `Method::GET`. -/
inductive Method where
  | GET | HEAD | POST | PUT | DELETE | OPTIONS | PATCH
  deriving DecidableEq, Repr

/-- The parts of an inbound request the middleware can see. Header names are
stored normalized (lowercased) as in `http::HeaderMap`. `path` and `body`
are carried to express that the gate does not consult them. -/
structure Request where
  method : Method
  headers : List (String × Bytes)
  path : String
  body : Bytes
  deriving DecidableEq, Repr

/-- Model of `HeaderMap::get`: first value stored under the given name. -/
def headers_get (name : String) (req : Request) : Option Bytes :=
  (req.headers.find? (fun p => p.fst == name)).map Prod.snd

/-! ### The four middleware variants

Both adapters select one of four per-policy services from the two optional
secrets; the tonic adapter uses one enum (`ApiKeyMiddleware` in
`src/tonic/api_key.rs`), the actix adapter one boxed object per policy.
One tagged variant represents both. -/

/-- Tagged middleware variant with the fields each policy carries. -/
inductive ApiKeyMiddleware where
  | fullApiKey (master_key read_only_key : Bytes)
  | masterKey (master_key : Bytes)
  | readOnlyKey (read_only_key : Bytes)
  | phantom
  deriving DecidableEq, Repr

/-- Variant selection from the two optional secrets, as in
`ApiKeyGuard::new_transform` (actix) and `ApiKeyMiddlewareLayer::layer`
(tonic): both present → Full, master only → Master, read-only only →
ReadOnly, a final catch-all arm → Phantom. -/
def new_transform (master_key read_only_key : Option Bytes) : ApiKeyMiddleware :=
  match master_key, read_only_key with
  | some m, some r => .fullApiKey m r
  | some m, none => .masterKey m
  | none, some r => .readOnlyKey r
  | none, none => .phantom

/-! ### Admission decisions, one per `call` body in the source

Each `call` either early-returns `service.call(req)` (admit) or falls
through to the forbidden response (reject). The `Bool` below is exactly
that branch decision. -/

/-- Decision of `FullApiKeyMiddleware::call`
(`src/actix/api_key_middleware/full_api_key_middleware.rs`): header present,
decodable; on GET admit when the value equals the read-only key or the
master key, otherwise admit only when it equals the master key. -/
def full_call_admits (master_key read_only_key : Bytes) (req : Request) : Bool :=
  match headers_get "api-key" req with
  | some v =>
    match header_value_to_str v with
    | some key =>
      if req.method = Method.GET then
        constant_time_eq read_only_key key || constant_time_eq master_key key
      else
        constant_time_eq master_key key
    | none => false
  | none => false

/-- Decision of `MasterKeyMiddleware::call`
(`src/actix/api_key_middleware/master_api_key_middleware.rs`): header
present, decodable, equal to the master key; the method is never read. -/
def master_call_admits (master_key : Bytes) (req : Request) : Bool :=
  match headers_get "api-key" req with
  | some v =>
    match header_value_to_str v with
    | some key => constant_time_eq master_key key
    | none => false
  | none => false

/-- Decision of `ReadOnlyKeyMiddleware::call`
(`src/actix/api_key_middleware/read_only_key_middleware.rs`): the method
test is the outermost guard, then header present, decodable, equal to the
read-only key. -/
def read_only_call_admits (read_only_key : Bytes) (req : Request) : Bool :=
  if req.method = Method.GET then
    match headers_get "api-key" req with
    | some v =>
      match header_value_to_str v with
      | some key => constant_time_eq read_only_key key
      | none => false
    | none => false
  else false

/-- Decision of the Full branch of `ApiKeyMiddleware::call`
(`src/tonic/api_key.rs`): first `GET && read-only key matches`, then a
separate master-key test, else reject. -/
def tonic_full_call_admits (master_key read_only_key : Bytes) (req : Request) : Bool :=
  match headers_get "api-key" req with
  | some v =>
    match header_value_to_str v with
    | some key =>
      if req.method = Method.GET && constant_time_eq read_only_key key then true
      else constant_time_eq master_key key
    | none => false
  | none => false

/-- Decision of the ReadOnly branch of `ApiKeyMiddleware::call` in
`src/tonic/api_key.rs` and of `ReadOnlyKeyMiddleware::call` in
`src/tonic/api_key_middleware/read_only_key_middleware.rs`:
`GET && read-only key matches`, else reject. -/
def tonic_read_only_call_admits (read_only_key : Bytes) (req : Request) : Bool :=
  match headers_get "api-key" req with
  | some v =>
    match header_value_to_str v with
    | some key => req.method = Method.GET && constant_time_eq read_only_key key
    | none => false
  | none => false

/-- Decision of the Master branch of `ApiKeyMiddleware::call`
(`src/tonic/api_key.rs`): header present, decodable, equal to the master
key; the method is never read. -/
def tonic_master_call_admits (master_key : Bytes) (req : Request) : Bool :=
  match headers_get "api-key" req with
  | some v =>
    match header_value_to_str v with
    | some key => constant_time_eq master_key key
    | none => false
  | none => false

/-- Admission decision of the actix adapter, per variant. The Phantom
variant's `call` body is exactly `self.service.call(req)`: every request
is admitted. -/
def actix_admits : ApiKeyMiddleware → Request → Bool
  | .fullApiKey m r, req => full_call_admits m r req
  | .masterKey m, req => master_call_admits m req
  | .readOnlyKey r, req => read_only_call_admits r req
  | .phantom, _ => true

/-- Admission decision of the tonic adapter, per variant. -/
def tonic_admits : ApiKeyMiddleware → Request → Bool
  | .fullApiKey m r, req => tonic_full_call_admits m r req
  | .masterKey m, req => tonic_master_call_admits m req
  | .readOnlyKey r, req => tonic_read_only_call_admits r req
  | .phantom, _ => true

/-! ### Responses -/

/-- Response shape: status, headers, body bytes. -/
structure HttpResponse where
  status : Nat
  headers : List (String × String)
  body : String
  deriving DecidableEq, Repr

/-- Rejection response of the actix adapter:
`HttpResponse::Forbidden().body("Invalid api-key")`. -/
def actix_forbidden : HttpResponse :=
  { status := 403, headers := [], body := "Invalid api-key" }

/-- Rejection response of the tonic adapter: HTTP 403 with
`grpc-status: 7` (`Code::PermissionDenied as i32`) and
`grpc-message: Invalid api-key`, empty body. -/
def tonic_forbidden : HttpResponse :=
  { status := 403
    headers := [("grpc-status", "7"), ("grpc-message", "Invalid api-key")]
    body := "" }

/-- Full actix gate on a request: forward to the next service on admission,
else the constant forbidden response. -/
def actix_call (svc : ApiKeyMiddleware) (next : Request → HttpResponse)
    (req : Request) : HttpResponse :=
  match svc with
  | .phantom => next req
  | _ => if actix_admits svc req then next req else actix_forbidden

/-- Full tonic gate on a request: forward to the next service on admission,
else the constant forbidden response. -/
def tonic_call (svc : ApiKeyMiddleware) (next : Request → HttpResponse)
    (req : Request) : HttpResponse :=
  match svc with
  | .phantom => next req
  | _ => if tonic_admits svc req then next req else tonic_forbidden

/-! ### Sample data used by concrete witnesses -/

/-- Next-stage handler used in concrete scenarios: a constant 200 response. -/
def sample_next : Request → HttpResponse := fun _ => { status := 200, headers := [], body := "" }

/-- Request constructor used in concrete scenarios. -/
def sample_request (m : Method) (hs : List (String × Bytes)) : Request :=
  { method := m, headers := hs, path := "/x", body := [] }

/-! ### Typed memory maps (`mmap_type.rs`)

The mapping is a byte region; the OS-visible effects the claims are about
are whether the pages are pinned in memory (`mlock`) and whether writes
were flushed to disk (`msync`). -/

/-- Model of `memmap2::MmapMut`: contents plus the pin/durability effects. -/
structure MmapMut where
  bytes : Bytes
  resident : Bool
  durable : Bool
  deriving DecidableEq, Repr

/-- Model of `memmap2::MmapMut::flush`: request OS durability of the region. -/
def MmapMut.flush (m : MmapMut) : MmapMut := { m with durable := true }

/-- Model of `memmap2::MmapMut::lock`: `mlock(2)`, request that the region's
pages stay resident in memory. -/
def MmapMut.lock (m : MmapMut) : MmapMut := { m with resident := true }

/-- State of `MmapType<T>` / `MmapBitSlice` relevant to `lock` and
`flusher`: the shared `Arc<Mutex<MmapMut>>` cell. -/
structure MmapTypeState where
  mmap : MmapMut
  deriving DecidableEq, Repr

/-- Body of `MmapType::lock` as written in the source (`mmap_type.rs:127`):
`self.mmap.lock().unwrap().flush()` — the mutex is taken and
`MmapMut::flush` is invoked on the mapping. -/
def mmap_type_lock (st : MmapTypeState) : MmapTypeState :=
  { st with mmap := st.mmap.flush }

/-- Body of the closure returned by `MmapType::flusher`
(`mmap_type.rs:132-142`): take the mutex, `MmapMut::flush`. -/
def mmap_type_flusher (st : MmapTypeState) : MmapTypeState :=
  { st with mmap := st.mmap.flush }

/-- Body of `MmapBitSlice::lock` (`mmap_type.rs:253-256`): delegates to
`MmapType::lock` on the inner typed mmap. -/
def mmap_bitslice_lock (st : MmapTypeState) : MmapTypeState :=
  mmap_type_lock st

/-- Consecutive chunks of `s` bytes: the typed slice `&[T]` overlaid on a
byte region, each element represented by its `sizeof(T) = s` bytes. -/
def chunkBytes (s : Nat) : Bytes → List Bytes
  | [] => []
  | x :: xs =>
    if _h : s = 0 then []
    else (x :: xs).take s :: chunkBytes s ((x :: xs).drop s)
  termination_by l => l.length
  decreasing_by
    simp only [List.length_drop, List.length_cons]
    omega

/-- Model of `pointer::align_offset`: bytes to add to `addr` to reach the
next `align`-aligned address; zero means already aligned. -/
def align_offset (addr align : Nat) : Nat := (align - addr % align) % align

/-- Model of `mmap_to_slice_unbounded` (`mmap_type.rs:331-360`) for a type
of size `sizeT` and alignment `alignT`, on a mapping whose base address is
`base`. `none` models a panic. In source order: the `[header_size..]`
slicing (panics when out of range), `assert_alignment` on the suffix,
`debug_assert` that the header is a multiple of `sizeof(T)` (active only
when `debug` is set), the release `assert_eq` that the suffix length is a
multiple of `sizeof(T)`, then the transmuted slice of
`bytes.len() / sizeof(T)` elements. -/
def mmap_to_slice_unbounded (sizeT alignT : Nat) (debug : Bool) (base : Nat)
    (mmap : Bytes) (header_size : Nat) : Option (List Bytes) :=
  if header_size > mmap.length then none
  else if align_offset (base + header_size) alignT ≠ 0 then none
  else if debug = true ∧ header_size % sizeT ≠ 0 then none
  else if (mmap.drop header_size).length % sizeT ≠ 0 then none
  else some (chunkBytes sizeT (mmap.drop header_size))

/-- Model of `MmapSlice::from` (`mmap_type.rs:198-202`), which delegates to
`MmapType::slice_from`, i.e. `mmap_to_slice_unbounded` with header 0. -/
def mmap_slice_from (sizeT alignT : Nat) (debug : Bool) (base : Nat)
    (mmap : Bytes) : Option (List Bytes) :=
  mmap_to_slice_unbounded sizeT alignT debug base mmap 0

/-- Bulk write through the sequence view: `copy_from_slice` replaces the
mapped bytes with the elements' bytes. -/
def copy_from_slice (template : List Bytes) : Bytes := template.flatten

/-- Size of the platform word (`usize`) in bytes, on the 64-bit targets
qdrant ships for. -/
def USIZE_BYTES : Nat := 8

/-- Bits per platform word. -/
def USIZE_BITS : Nat := 64

/-- Little-endian value of a byte string (how a `usize` reads its bytes). -/
def le_word : Bytes → Nat
  | [] => 0
  | b :: bs => b + 256 * le_word bs

/-- Little-endian bytes of a value, `k` bytes wide. -/
def word_le_bytes : Nat → Nat → Bytes
  | 0, _ => []
  | k+1, w => w % 256 :: word_le_bytes k (w / 256)

/-- Model of `MmapBitSlice::from` (`mmap_type.rs:237-248`): reinterpret the
mapping past the header as a slice of platform words
(`mmap_to_slice_unbounded::<usize>`), the backing store of the
`BitSlice`. -/
def mmap_bitslice_from (debug : Bool) (base : Nat) (mmap : Bytes)
    (header_size : Nat) : Option (List Nat) :=
  (mmap_to_slice_unbounded USIZE_BYTES USIZE_BYTES debug base mmap header_size).map
    (List.map le_word)

/-- One word after `BitSlice::set` on bit `r`: or the mask in, or and the
complemented mask out. -/
def set_bit_word (w r : Nat) (b : Bool) : Nat :=
  if b then w ||| 2 ^ r else Nat.ldiff w (2 ^ r)

/-- Model of `BitSlice` indexing: bit `i` lives in word `i / 64` at
in-word position `i % 64`. -/
def bit_get (words : List Nat) (i : Nat) : Bool :=
  Nat.testBit (words.getD (i / USIZE_BITS) 0) (i % USIZE_BITS)

/-- Model of `BitSlice::set`. -/
def bit_set (words : List Nat) (i : Nat) (b : Bool) : List Nat :=
  words.set (i / USIZE_BITS)
    (set_bit_word (words.getD (i / USIZE_BITS) 0) (i % USIZE_BITS) b)

/-- Setting bits `0..n` to the values of `f`, as the test loop
`(0..bits).for_each(|i| mmap_bitslice.set(i, rng.gen()))` does. -/
def write_bits (f : Nat → Bool) : Nat → List Nat → List Nat
  | 0, ws => ws
  | n+1, ws => bit_set (write_bits f n ws) n (f n)

/-- Bytes on disk after the bit view's words are written back and the file
is closed: the untouched header prefix followed by each word's bytes. -/
def persist_bits (header : Bytes) (words : List Nat) : Bytes :=
  header ++ (words.map (word_le_bytes USIZE_BYTES)).flatten

/-! ### Advice subsystem (`madvise.rs`) -/

/-- Platform-independent advice enum of `madvise.rs`. -/
inductive Advice where
  | Normal | Random | Sequential | PopulateRead
  deriving DecidableEq, Repr

/-- Compilation targets distinguished by the `cfg` directives in
`madvise.rs`: `cfg(target_os = "linux")`, other `cfg(unix)`, non-Unix. -/
inductive Platform where
  | linux | otherUnix | nonUnix
  deriving DecidableEq, Repr

/-- Advice variants of the `memmap2` crate (Unix only). -/
inductive M2Advice where
  | Normal | Random | Sequential
  deriving DecidableEq, Repr

/-- Error kinds surfaced by the advice subsystem. -/
inductive ErrorKind where
  | Unsupported
  deriving DecidableEq, Repr

/-- Model of `TryFrom<Advice> for memmap2::Advice` (`madvise.rs:68-93`),
compiled only on Unix: the three plain variants convert; `PopulateRead`
errors with `ErrorKind::Unsupported`, with a message depending on
`cfg(target_os = "linux")`. -/
def advice_try_from (p : Platform) (a : Advice) :
    Except (ErrorKind × String) M2Advice :=
  match a with
  | .Normal => .ok .Normal
  | .Random => .ok .Random
  | .Sequential => .ok .Sequential
  | .PopulateRead =>
    if p = .linux then
      .error (.Unsupported, "MADV_POPULATE_READ is not supported by memmap2 crate yet")
    else
      .error (.Unsupported, "MADV_POPULATE_READ is only supported on Linux")

/-- State touched by the advice subsystem: the hints applied to one mapping
and the process-wide `ADVICE` cell. -/
structure AdviceState where
  applied : List M2Advice
  globalAdvice : Advice
  deriving DecidableEq, Repr

/-- Model of `memmap2::MmapMut::advise`: record the hint on the mapping. -/
def mmapmut_advise (st : AdviceState) (a : M2Advice) : AdviceState :=
  { st with applied := st.applied ++ [a] }

/-- Model of `Madviseable::madvise` for `MmapMut` (`madvise.rs:115-121`):
on Unix, convert via `TryFrom` (the `?` propagates the error before any OS
call) and invoke the primitive; on non-Unix the conversion-and-call line is
compiled out (`cfg(unix)`) and the call is a successful no-op. The global
cell is never read or written. -/
def madvise (p : Platform) (st : AdviceState) (advice : Advice) :
    Except (ErrorKind × String) AdviceState :=
  match p with
  | .nonUnix => .ok st
  | _ =>
    match advice_try_from p advice with
    | .error e => .error e
    | .ok a => .ok (mmapmut_advise st a)

/-- Model of `set_global` (`madvise.rs:27-29`). -/
def set_global (st : AdviceState) (advice : Advice) : AdviceState :=
  { st with globalAdvice := advice }

/-- Model of `get_global` (`madvise.rs:32-34`). -/
def get_global (st : AdviceState) : Advice := st.globalAdvice

/-! ### Facts about the constant-time comparison -/

theorem lor_eq_zero_iff (a b : Nat) : a ||| b = 0 ↔ a = 0 ∧ b = 0 := by
  constructor
  · intro h
    have ha : a ≤ a ||| b := Nat.le_of_testBit fun i hi => by
      simp [Nat.testBit_lor, hi]
    have hb : b ≤ a ||| b := Nat.le_of_testBit fun i hi => by
      simp [Nat.testBit_lor, hi]
    omega
  · rintro ⟨rfl, rfl⟩
    rfl

theorem foldl_lor_eq_zero_iff (l : List Nat) (acc : Nat) :
    l.foldl (fun tmp x => tmp ||| x) acc = 0 ↔ acc = 0 ∧ ∀ x ∈ l, x = 0 := by
  induction l generalizing acc with
  | nil => simp
  | cons y ys ih =>
    simp only [List.foldl_cons, ih, lor_eq_zero_iff, List.mem_cons]
    constructor
    · rintro ⟨⟨h1, h2⟩, h3⟩
      exact ⟨h1, fun x hx => hx.elim (fun h => h ▸ h2) (h3 x)⟩
    · rintro ⟨h1, h2⟩
      exact ⟨⟨h1, h2 y (Or.inl rfl)⟩, fun x hx => h2 x (Or.inr hx)⟩

theorem constant_time_ne_eq_zero_iff (a b : Bytes) (h : a.length = b.length) :
    constant_time_ne a b = 0 ↔ a = b := by
  unfold constant_time_ne
  rw [foldl_lor_eq_zero_iff]
  simp only [true_and]
  induction a generalizing b with
  | nil => cases b <;> simp at h ⊢
  | cons x xs ih =>
    cases b with
    | nil => simp at h
    | cons y ys =>
      simp only [List.length_cons, Nat.succ_inj] at h
      simp only [List.zipWith_cons_cons, List.mem_cons, List.cons.injEq]
      constructor
      · intro hz
        have hxy : x ^^^ y = 0 := hz _ (Or.inl rfl)
        refine ⟨Nat.xor_eq_zero.mp hxy, (ih ys h).mp fun z hz' => hz z (Or.inr hz')⟩
      · rintro ⟨rfl, rfl⟩
        intro z hz'
        rcases hz' with h' | h'
        · simpa [Nat.xor_self] using h'
        · exact ((ih xs rfl).mpr rfl) z h'

/-- Soundness of the constant-time comparison: it decides byte-string
equality. -/
theorem constant_time_eq_iff (a b : Bytes) : constant_time_eq a b = true ↔ a = b := by
  unfold constant_time_eq
  simp only [Bool.and_eq_true, beq_iff_eq]
  constructor
  · rintro ⟨hlen, hne⟩
    exact (constant_time_ne_eq_zero_iff a b hlen).mp hne
  · rintro rfl
    exact ⟨rfl, (constant_time_ne_eq_zero_iff a a rfl).mpr rfl⟩

/-! ### Helper facts about admission -/

theorem key_lookup_iff (P : Bytes → Bool) (req : Request) :
    (match headers_get "api-key" req with
     | some v =>
       match header_value_to_str v with
       | some key => P key
       | none => false
     | none => false) = true ↔
    ∃ v key, headers_get "api-key" req = some v ∧
      header_value_to_str v = some key ∧ P key = true := by
  cases hv : headers_get "api-key" req with
  | none => simp
  | some v =>
    cases hk : header_value_to_str v with
    | none => simp [hk]
    | some key => simp [hk]

theorem master_call_admits_iff (K : Bytes) (req : Request) :
    master_call_admits K req = true ↔
    ∃ v key, headers_get "api-key" req = some v ∧
      header_value_to_str v = some key ∧ constant_time_eq K key = true := by
  unfold master_call_admits
  exact key_lookup_iff (fun key => constant_time_eq K key) req

theorem actix_call_if (svc : ApiKeyMiddleware) (next : Request → HttpResponse)
    (req : Request) (h : svc ≠ .phantom) :
    actix_call svc next req =
      if actix_admits svc req then next req else actix_forbidden := by
  cases svc with
  | fullApiKey m r => rfl
  | masterKey m => rfl
  | readOnlyKey r => rfl
  | phantom => exact absurd rfl h

theorem tonic_call_if (svc : ApiKeyMiddleware) (next : Request → HttpResponse)
    (req : Request) (h : svc ≠ .phantom) :
    tonic_call svc next req =
      if tonic_admits svc req then next req else tonic_forbidden := by
  cases svc with
  | fullApiKey m r => rfl
  | masterKey m => rfl
  | readOnlyKey r => rfl
  | phantom => exact absurd rfl h

/-! ### Claims -/

/-- Claim C2: a ReadOnly gate with secret K forwards a request iff the
method is GET and the api-key header is present, decodable, and
constant-time-equal to K; every other request receives the 403 forbidden
response. Both the actix and the tonic decision are covered; the two
rejection responses are each adapter's constant forbidden response. -/
theorem C2_read_only_gate (K : Bytes) (req : Request)
    (next : Request → HttpResponse) :
    (read_only_call_admits K req = true ↔
      req.method = Method.GET ∧
      ∃ v key, headers_get "api-key" req = some v ∧
        header_value_to_str v = some key ∧ constant_time_eq K key = true)
    ∧ tonic_read_only_call_admits K req = read_only_call_admits K req
    ∧ (read_only_call_admits K req = true →
        actix_call (.readOnlyKey K) next req = next req
        ∧ tonic_call (.readOnlyKey K) next req = next req)
    ∧ (read_only_call_admits K req = false →
        actix_call (.readOnlyKey K) next req = actix_forbidden
        ∧ tonic_call (.readOnlyKey K) next req = tonic_forbidden) := by
  have hadm : read_only_call_admits K req = true ↔
      req.method = Method.GET ∧
      ∃ v key, headers_get "api-key" req = some v ∧
        header_value_to_str v = some key ∧ constant_time_eq K key = true := by
    unfold read_only_call_admits
    by_cases hm : req.method = Method.GET
    · rw [if_pos hm]
      rw [key_lookup_iff (fun key => constant_time_eq K key) req]
      simp [hm]
    · rw [if_neg hm]
      simp [hm]
  have htn : tonic_read_only_call_admits K req = read_only_call_admits K req := by
    unfold tonic_read_only_call_admits read_only_call_admits
    by_cases hm : req.method = Method.GET
    · rw [if_pos hm]
      cases hv : headers_get "api-key" req with
      | none => rfl
      | some v =>
        cases hk : header_value_to_str v with
        | none => simp [hk]
        | some key => simp [hk, hm]
    · rw [if_neg hm]
      cases hv : headers_get "api-key" req with
      | none => rfl
      | some v =>
        cases hk : header_value_to_str v with
        | none => simp [hk]
        | some key => simp [hk, hm]
  refine ⟨hadm, htn, ?_, ?_⟩
  · intro h
    rw [actix_call_if _ _ _ (by intro hc; cases hc),
        tonic_call_if _ _ _ (by intro hc; cases hc)]
    simp [actix_admits, tonic_admits, h, htn]
  · intro h
    rw [actix_call_if _ _ _ (by intro hc; cases hc),
        tonic_call_if _ _ _ (by intro hc; cases hc)]
    simp [actix_admits, tonic_admits, h, htn]

/-- Claim C2 witness: with K = "xyz", a GET carrying the key is forwarded
and a PUT carrying the same key gets the forbidden response (scenario 4 of
the spec). -/
theorem C2_read_only_gate_witness :
    actix_call (.readOnlyKey [120, 121, 122]) sample_next
        (sample_request .GET [("api-key", [120, 121, 122])]) =
      sample_next (sample_request .GET [("api-key", [120, 121, 122])])
    ∧ actix_call (.readOnlyKey [120, 121, 122]) sample_next
        (sample_request .PUT [("api-key", [120, 121, 122])]) = actix_forbidden
    ∧ tonic_call (.readOnlyKey [120, 121, 122]) sample_next
        (sample_request .PUT [("api-key", [120, 121, 122])]) = tonic_forbidden := by
  refine ⟨?_, ?_, ?_⟩
  · exact ((C2_read_only_gate [120, 121, 122]
      (sample_request .GET [("api-key", [120, 121, 122])]) sample_next).2.2.1
      (by decide)).1
  · exact ((C2_read_only_gate [120, 121, 122]
      (sample_request .PUT [("api-key", [120, 121, 122])]) sample_next).2.2.2
      (by decide)).1
  · exact ((C2_read_only_gate [120, 121, 122]
      (sample_request .PUT [("api-key", [120, 121, 122])]) sample_next).2.2.2
      (by decide)).2

/-- Claim C3: a Master gate with secret K forwards a request of any method
iff the api-key header is present, decodable, and constant-time-equal to
K; otherwise the forbidden response is returned. The request method never
affects the decision, on either adapter. -/
theorem C3_master_gate (K : Bytes) (req : Request)
    (next : Request → HttpResponse) :
    (master_call_admits K req = true ↔
      ∃ v key, headers_get "api-key" req = some v ∧
        header_value_to_str v = some key ∧ constant_time_eq K key = true)
    ∧ tonic_master_call_admits K req = master_call_admits K req
    ∧ (∀ m, master_call_admits K { req with method := m } =
        master_call_admits K req)
    ∧ (master_call_admits K req = true →
        actix_call (.masterKey K) next req = next req
        ∧ tonic_call (.masterKey K) next req = next req)
    ∧ (master_call_admits K req = false →
        actix_call (.masterKey K) next req = actix_forbidden
        ∧ tonic_call (.masterKey K) next req = tonic_forbidden) := by
  have htn : tonic_master_call_admits K req = master_call_admits K req := rfl
  refine ⟨master_call_admits_iff K req, htn, ?_, ?_, ?_⟩
  · intro m
    unfold master_call_admits headers_get
    rfl
  · intro h
    rw [actix_call_if _ _ _ (by intro hc; cases hc),
        tonic_call_if _ _ _ (by intro hc; cases hc)]
    simp [actix_admits, tonic_admits, h, htn]
  · intro h
    rw [actix_call_if _ _ _ (by intro hc; cases hc),
        tonic_call_if _ _ _ (by intro hc; cases hc)]
    simp [actix_admits, tonic_admits, h, htn]

/-- Claim C3 witness: with K = "abc", a POST carrying the key is forwarded
(scenario-3 shape) and a POST carrying "xyz" is rejected on both adapters. -/
theorem C3_master_gate_witness :
    actix_call (.masterKey [97, 98, 99]) sample_next
        (sample_request .POST [("api-key", [97, 98, 99])]) =
      sample_next (sample_request .POST [("api-key", [97, 98, 99])])
    ∧ actix_call (.masterKey [97, 98, 99]) sample_next
        (sample_request .POST [("api-key", [120, 121, 122])]) = actix_forbidden := by
  constructor
  · exact ((C3_master_gate [97, 98, 99]
      (sample_request .POST [("api-key", [97, 98, 99])]) sample_next).2.2.2.1
      (by decide)).1
  · exact ((C3_master_gate [97, 98, 99]
      (sample_request .POST [("api-key", [120, 121, 122])]) sample_next).2.2.2.2
      (by decide)).1

/-- Claim C4: a gate constructed with neither secret is the Phantom variant
and passes every request through unchanged: on both adapters its response
is exactly the next stage's response on the unmodified request, for every
next stage and every request — including requests with no api-key header. -/
theorem C4_phantom_gate (next : Request → HttpResponse) (req : Request) :
    new_transform none none = ApiKeyMiddleware.phantom
    ∧ actix_call .phantom next req = next req
    ∧ tonic_call .phantom next req = next req :=
  ⟨rfl, rfl, rfl⟩

/-- Claim C1 counterexample: the claim quantifies over every Full gate, but
for the gate whose master secret equals its read-only secret ("abc"), a
POST carrying the read-only secret is forwarded — it also constant-time
equals the master secret — not rejected with 403. -/
theorem C1_full_gate_counterexample :
    full_call_admits [97, 98, 99] [97, 98, 99]
        (sample_request .POST [("api-key", [97, 98, 99])]) = true
    ∧ tonic_full_call_admits [97, 98, 99] [97, 98, 99]
        (sample_request .POST [("api-key", [97, 98, 99])]) = true
    ∧ actix_call (.fullApiKey [97, 98, 99] [97, 98, 99]) sample_next
        (sample_request .POST [("api-key", [97, 98, 99])]) ≠ actix_forbidden := by
  refine ⟨by decide, by decide, ?_⟩
  intro h
  exact absurd (congrArg HttpResponse.status h) (by decide)

/-- Claim C1 (amended): for a Full gate and a request whose api-key header
is present and decodable to `key`: on GET it is forwarded iff `key`
constant-time-equals the read-only or the master secret; on non-GET iff it
constant-time-equals the master secret; and — provided the read-only
secret does not constant-time-equal the master secret — a non-GET request
carrying the read-only secret is rejected with the 403 forbidden response,
on both adapters. -/
theorem C1_full_gate (m r : Bytes) (req : Request) (v key : Bytes)
    (next : Request → HttpResponse)
    (hv : headers_get "api-key" req = some v)
    (hk : header_value_to_str v = some key) :
    (req.method = Method.GET →
      full_call_admits m r req =
        (constant_time_eq r key || constant_time_eq m key))
    ∧ (req.method ≠ Method.GET →
      full_call_admits m r req = constant_time_eq m key)
    ∧ tonic_full_call_admits m r req = full_call_admits m r req
    ∧ (full_call_admits m r req = true →
        actix_call (.fullApiKey m r) next req = next req
        ∧ tonic_call (.fullApiKey m r) next req = next req)
    ∧ (full_call_admits m r req = false →
        actix_call (.fullApiKey m r) next req = actix_forbidden
        ∧ tonic_call (.fullApiKey m r) next req = tonic_forbidden)
    ∧ (req.method ≠ Method.GET → key = r → constant_time_eq m r = false →
        actix_call (.fullApiKey m r) next req = actix_forbidden
        ∧ tonic_call (.fullApiKey m r) next req = tonic_forbidden) := by
  have hget : ∀ hm : req.method = Method.GET,
      full_call_admits m r req =
        (constant_time_eq r key || constant_time_eq m key) := by
    intro hm
    unfold full_call_admits
    simp [hv, hk, hm]
  have hnotget : ∀ _hm : req.method ≠ Method.GET,
      full_call_admits m r req = constant_time_eq m key := by
    intro hm
    unfold full_call_admits
    simp [hv, hk, hm]
  have htn : tonic_full_call_admits m r req = full_call_admits m r req := by
    unfold tonic_full_call_admits full_call_admits
    simp only [hv, hk]
    by_cases hm : req.method = Method.GET
    · cases hr : constant_time_eq r key <;> simp [hm, hr]
    · simp [hm]
  have hfwd : full_call_admits m r req = true →
      actix_call (.fullApiKey m r) next req = next req
      ∧ tonic_call (.fullApiKey m r) next req = next req := by
    intro h
    rw [actix_call_if _ _ _ (by intro hc; cases hc),
        tonic_call_if _ _ _ (by intro hc; cases hc)]
    simp [actix_admits, tonic_admits, h, htn]
  have hrej : full_call_admits m r req = false →
      actix_call (.fullApiKey m r) next req = actix_forbidden
      ∧ tonic_call (.fullApiKey m r) next req = tonic_forbidden := by
    intro h
    rw [actix_call_if _ _ _ (by intro hc; cases hc),
        tonic_call_if _ _ _ (by intro hc; cases hc)]
    simp [actix_admits, tonic_admits, h, htn]
  refine ⟨hget, hnotget, htn, hfwd, hrej, ?_⟩
  intro hm hkey hmr
  apply hrej
  rw [hnotget hm, hkey, hmr]

/-- Claim C1 witness: with master "abc" and read-only "xyz" (distinct),
a GET carrying "xyz" is forwarded, a POST carrying "abc" is forwarded, and
a POST carrying "xyz" is rejected on both adapters — spec scenarios 1-3
and the regression sentinel. -/
theorem C1_full_gate_witness :
    actix_call (.fullApiKey [97, 98, 99] [120, 121, 122]) sample_next
        (sample_request .GET [("api-key", [120, 121, 122])]) =
      sample_next (sample_request .GET [("api-key", [120, 121, 122])])
    ∧ actix_call (.fullApiKey [97, 98, 99] [120, 121, 122]) sample_next
        (sample_request .POST [("api-key", [97, 98, 99])]) =
      sample_next (sample_request .POST [("api-key", [97, 98, 99])])
    ∧ actix_call (.fullApiKey [97, 98, 99] [120, 121, 122]) sample_next
        (sample_request .POST [("api-key", [120, 121, 122])]) = actix_forbidden
    ∧ tonic_call (.fullApiKey [97, 98, 99] [120, 121, 122]) sample_next
        (sample_request .POST [("api-key", [120, 121, 122])]) = tonic_forbidden := by
  refine ⟨?_, ?_, ?_, ?_⟩
  · exact ((C1_full_gate [97, 98, 99] [120, 121, 122]
      (sample_request .GET [("api-key", [120, 121, 122])])
      [120, 121, 122] [120, 121, 122] sample_next rfl rfl).2.2.2.1
      (by decide)).1
  · exact ((C1_full_gate [97, 98, 99] [120, 121, 122]
      (sample_request .POST [("api-key", [97, 98, 99])])
      [97, 98, 99] [97, 98, 99] sample_next rfl rfl).2.2.2.1
      (by decide)).1
  · exact ((C1_full_gate [97, 98, 99] [120, 121, 122]
      (sample_request .POST [("api-key", [120, 121, 122])])
      [120, 121, 122] [120, 121, 122] sample_next rfl rfl).2.2.2.2.2
      (by decide) rfl (by decide)).1
  · exact ((C1_full_gate [97, 98, 99] [120, 121, 122]
      (sample_request .POST [("api-key", [120, 121, 122])])
      [120, 121, 122] [120, 121, 122] sample_next rfl rfl).2.2.2.2.2
      (by decide) rfl (by decide)).2

/-- Claim C5: on every rejected request — whatever the cause: missing
header, undecodable header, wrong secret, wrong method for the read-only
secret — each adapter returns its one constant forbidden response (HTTP:
403 with body "Invalid api-key"; gRPC: 403 with grpc-status 7 and
grpc-message "Invalid api-key" and empty body), and the next stage is
never invoked: the result is the same for every next stage. -/
theorem C5_uniform_rejection (svc : ApiKeyMiddleware) (req : Request)
    (next next' : Request → HttpResponse) :
    (actix_admits svc req = false →
      actix_call svc next req = actix_forbidden
      ∧ actix_call svc next' req = actix_call svc next req)
    ∧ (tonic_admits svc req = false →
      tonic_call svc next req = tonic_forbidden
      ∧ tonic_call svc next' req = tonic_call svc next req)
    ∧ actix_forbidden.status = 403
    ∧ actix_forbidden.body = "Invalid api-key"
    ∧ tonic_forbidden.status = 403
    ∧ tonic_forbidden.headers =
        [("grpc-status", "7"), ("grpc-message", "Invalid api-key")]
    ∧ tonic_forbidden.body = "" := by
  refine ⟨?_, ?_, rfl, rfl, rfl, rfl, rfl⟩
  · intro h
    have hph : svc ≠ .phantom := by
      intro hc
      subst hc
      exact absurd h (by simp [actix_admits])
    rw [actix_call_if _ next _ hph, actix_call_if _ next' _ hph, if_neg, if_neg]
      <;> simp [h]
  · intro h
    have hph : svc ≠ .phantom := by
      intro hc
      subst hc
      exact absurd h (by simp [tonic_admits])
    rw [tonic_call_if _ next _ hph, tonic_call_if _ next' _ hph, if_neg, if_neg]
      <;> simp [h]

/-- Claim C5 witness: four differently-caused rejections of a Full gate —
missing header, undecodable header byte 0, wrong secret, read-only secret
on POST — all evaluate to the identical forbidden response. -/
theorem C5_uniform_rejection_witness :
    actix_call (.fullApiKey [97, 98, 99] [120, 121, 122]) sample_next
        (sample_request .POST []) = actix_forbidden
    ∧ actix_call (.fullApiKey [97, 98, 99] [120, 121, 122]) sample_next
        (sample_request .POST [("api-key", [0])]) = actix_forbidden
    ∧ actix_call (.fullApiKey [97, 98, 99] [120, 121, 122]) sample_next
        (sample_request .POST [("api-key", [119])]) = actix_forbidden
    ∧ tonic_call (.fullApiKey [97, 98, 99] [120, 121, 122]) sample_next
        (sample_request .POST [("api-key", [120, 121, 122])]) = tonic_forbidden := by
  refine ⟨?_, ?_, ?_, ?_⟩
  · exact ((C5_uniform_rejection (.fullApiKey [97, 98, 99] [120, 121, 122])
      (sample_request .POST []) sample_next sample_next).1 (by decide)).1
  · exact ((C5_uniform_rejection (.fullApiKey [97, 98, 99] [120, 121, 122])
      (sample_request .POST [("api-key", [0])]) sample_next sample_next).1
      (by decide)).1
  · exact ((C5_uniform_rejection (.fullApiKey [97, 98, 99] [120, 121, 122])
      (sample_request .POST [("api-key", [119])]) sample_next sample_next).1
      (by decide)).1
  · exact ((C5_uniform_rejection (.fullApiKey [97, 98, 99] [120, 121, 122])
      (sample_request .POST [("api-key", [120, 121, 122])]) sample_next
      sample_next).2.1 (by decide)).1

/-- Claim C10: for every variant, on both adapters, the admission decision
is a function of the request method and the api-key header lookup alone:
two requests agreeing on those get the same decision, whatever their
paths, bodies, or other headers. -/
theorem C10_decision_depends_only_on_method_and_key (svc : ApiKeyMiddleware)
    (r1 r2 : Request) (hm : r1.method = r2.method)
    (hh : headers_get "api-key" r1 = headers_get "api-key" r2) :
    actix_admits svc r1 = actix_admits svc r2
    ∧ tonic_admits svc r1 = tonic_admits svc r2 := by
  cases svc with
  | fullApiKey m r =>
    constructor
    · show full_call_admits m r r1 = full_call_admits m r r2
      unfold full_call_admits
      rw [hh, hm]
    · show tonic_full_call_admits m r r1 = tonic_full_call_admits m r r2
      unfold tonic_full_call_admits
      rw [hh, hm]
  | masterKey m =>
    constructor
    · show master_call_admits m r1 = master_call_admits m r2
      unfold master_call_admits
      rw [hh]
    · show tonic_master_call_admits m r1 = tonic_master_call_admits m r2
      unfold tonic_master_call_admits
      rw [hh]
  | readOnlyKey r =>
    constructor
    · show read_only_call_admits r r1 = read_only_call_admits r r2
      unfold read_only_call_admits
      rw [hh, hm]
    · show tonic_read_only_call_admits r r1 = tonic_read_only_call_admits r r2
      unfold tonic_read_only_call_admits
      rw [hh, hm]
  | phantom => exact ⟨rfl, rfl⟩

/-- Claim C10 witness: two requests agreeing on method and api-key header
but differing in path, body and an unrelated header get the same decision
on a concrete Full gate. -/
theorem C10_witness :
    actix_admits (.fullApiKey [97, 98, 99] [120, 121, 122])
        { method := .GET, headers := [("api-key", [120, 121, 122])],
          path := "/a", body := [1, 2] } =
      actix_admits (.fullApiKey [97, 98, 99] [120, 121, 122])
        { method := .GET,
          headers := [("content-type", [106]), ("api-key", [120, 121, 122])],
          path := "/b", body := [] } := by
  exact (C10_decision_depends_only_on_method_and_key
    (.fullApiKey [97, 98, 99] [120, 121, 122])
    { method := .GET, headers := [("api-key", [120, 121, 122])],
      path := "/a", body := [1, 2] }
    { method := .GET,
      headers := [("content-type", [106]), ("api-key", [120, 121, 122])],
      path := "/b", body := [] }
    (by decide) (by decide)).1

/-- Claim C6 (code-bug evidence): as written, `MmapType::lock` — and
`MmapBitSlice::lock`, which delegates to it — takes the mutex and invokes
`MmapMut::flush` on the mapping: it is extensionally the flusher body. Page
residency is untouched; the pinning primitive `MmapMut::lock` is never
invoked, contradicting the function's own doc comment ("Lock memory mapped
pages in memory, see MmapMut::lock") and the claim. -/
theorem C6_lock_flushes_instead_of_pinning (st : MmapTypeState) :
    mmap_type_lock st = { st with mmap := st.mmap.flush }
    ∧ mmap_bitslice_lock st = mmap_type_lock st
    ∧ (mmap_type_lock st).mmap.resident = st.mmap.resident
    ∧ (mmap_type_lock st).mmap.durable = true
    ∧ mmap_type_lock st = mmap_type_flusher st
    ∧ (st.mmap.lock).resident = true :=
  ⟨rfl, rfl, rfl, rfl, rfl, rfl⟩

/-- Claim C8 counterexample: on a non-Unix platform, `advise` with the
populate-on-read variant does not return an unsupported error: the
`cfg(unix)` conversion-and-call line is compiled out and the call succeeds
as a no-op, contradicting the claim's "on every platform" quantifier. -/
theorem C8_advise_counterexample :
    madvise .nonUnix { applied := [], globalAdvice := .Random } .PopulateRead =
      .ok { applied := [], globalAdvice := .Random } := rfl

/-- Claim C8 (amended): on Unix platforms, `advise` with populate-on-read
returns an Unsupported error and changes no state — the error propagates
before any primitive is invoked, and the process-wide cell is never
touched; normal, random and sequential on a Unix platform translate the
variant and invoke the platform primitive; on non-Unix platforms every
`advise` call succeeds as a no-op. -/
theorem C8_advise (st : AdviceState) :
    madvise .linux st .PopulateRead =
      .error (.Unsupported, "MADV_POPULATE_READ is not supported by memmap2 crate yet")
    ∧ madvise .otherUnix st .PopulateRead =
      .error (.Unsupported, "MADV_POPULATE_READ is only supported on Linux")
    ∧ (∀ p, p ≠ Platform.nonUnix →
        madvise p st .Normal = .ok (mmapmut_advise st .Normal)
        ∧ madvise p st .Random = .ok (mmapmut_advise st .Random)
        ∧ madvise p st .Sequential = .ok (mmapmut_advise st .Sequential))
    ∧ (∀ a, madvise .nonUnix st a = .ok st)
    ∧ (∀ p a st', madvise p st a = .ok st' →
        get_global st' = get_global st) := by
  refine ⟨rfl, rfl, ?_, fun a => rfl, ?_⟩
  · intro p hp
    cases p with
    | linux => exact ⟨rfl, rfl, rfl⟩
    | otherUnix => exact ⟨rfl, rfl, rfl⟩
    | nonUnix => exact absurd rfl hp
  · intro p a st' h
    cases p <;> cases a <;>
      simp only [madvise, advice_try_from, mmapmut_advise, reduceCtorEq,
        if_true, if_false, Except.ok.injEq] at h <;>
      (subst h; rfl)

/-- Claim C8 witness: concrete invocations on the initial state — a
sequential hint on Linux is applied to the mapping, and populate-on-read on
a non-Unix platform is a successful no-op. -/
theorem C8_advise_witness :
    madvise .linux { applied := [], globalAdvice := .Random } .Sequential =
      .ok (mmapmut_advise { applied := [], globalAdvice := .Random } .Sequential)
    ∧ madvise .nonUnix { applied := [], globalAdvice := .Random } .PopulateRead =
      .ok { applied := [], globalAdvice := .Random } :=
  ⟨((C8_advise { applied := [], globalAdvice := .Random }).2.2.1 .linux
      (by decide)).2.2,
   (C8_advise { applied := [], globalAdvice := .Random }).2.2.2.1 .PopulateRead⟩

/-! ### Chunking lemmas for the sequence view -/

theorem chunkBytes_nil (s : Nat) : chunkBytes s [] = [] := by
  rw [chunkBytes]

theorem chunkBytes_cons_eq (s : Nat) (hs : s ≠ 0) (x : Nat) (xs : Bytes) :
    chunkBytes s (x :: xs) =
      (x :: xs).take s :: chunkBytes s ((x :: xs).drop s) := by
  rw [chunkBytes]
  exact dif_neg hs

theorem chunkBytes_exact (s : Nat) (hs : s ≠ 0) (c : Bytes)
    (hc : c.length = s) (rest : Bytes) :
    chunkBytes s (c ++ rest) = c :: chunkBytes s rest := by
  have hcne : c ≠ [] := by
    intro hnil
    rw [hnil] at hc
    simp only [List.length_nil] at hc
    omega
  have htake : (c ++ rest).take s = c := by
    rw [← hc]
    exact List.take_left c rest
  have hdrop : (c ++ rest).drop s = rest := by
    rw [← hc]
    exact List.drop_left c rest
  cases hcc : c ++ rest with
  | nil =>
    exfalso
    have := congrArg List.length hcc
    simp only [List.length_append, List.length_nil] at this
    omega
  | cons y ys =>
    rw [← hcc, show chunkBytes s (c ++ rest) =
        (c ++ rest).take s :: chunkBytes s ((c ++ rest).drop s) from by
      rw [hcc, chunkBytes_cons_eq s hs, ← hcc]]
    rw [htake, hdrop]

theorem chunkBytes_length (s : Nat) (hs : 0 < s) :
    ∀ n (l : Bytes), l.length = n * s → (chunkBytes s l).length = n := by
  intro n
  induction n with
  | zero =>
    intro l hl
    have : l = [] := List.eq_nil_of_length_eq_zero (by simpa using hl)
    subst this
    rw [chunkBytes_nil]
    rfl
  | succ k ih =>
    intro l hl
    cases l with
    | nil =>
      exfalso
      simp only [List.length_nil] at hl
      have : 0 < (k + 1) * s := Nat.mul_pos (Nat.succ_pos k) hs
      omega
    | cons x xs =>
      rw [chunkBytes_cons_eq s (Nat.pos_iff_ne_zero.mp hs)]
      simp only [List.length_cons]
      have hdrop : ((x :: xs).drop s).length = k * s := by
        simp only [List.length_drop, List.length_cons]
        have : xs.length + 1 = (k + 1) * s := by
          simpa using hl
        rw [this, Nat.succ_mul]
        omega
      rw [ih _ hdrop]

theorem chunkBytes_flatten (s : Nat) (hs : 0 < s) :
    ∀ L : List Bytes, (∀ c ∈ L, c.length = s) →
      chunkBytes s L.flatten = L := by
  intro L
  induction L with
  | nil =>
    intro _
    rw [List.flatten_nil, chunkBytes_nil]
  | cons c cs ih =>
    intro hall
    have hc : c.length = s := hall c (List.mem_cons_self c cs)
    have hcs : ∀ d ∈ cs, d.length = s := fun d hd => hall d (List.mem_cons_of_mem c hd)
    have hcne : c ≠ [] := by
      intro hnil
      rw [hnil] at hc
      simp only [List.length_nil] at hc
      omega
    rw [List.flatten_cons]
    cases hcc : c ++ cs.flatten with
    | nil =>
      exfalso
      have := congrArg List.length hcc
      simp only [List.length_append, List.length_nil] at this
      omega
    | cons y ys =>
      rw [← hcc, chunkBytes_exact s (Nat.pos_iff_ne_zero.mp hs) c hc cs.flatten,
        ih hcs]

/-- Claim C7: constructing a sequence view over elements of size `sizeT` on
a region of `n * sizeT + header` bytes, skipping `header` bytes: in a
release build (or a debug build with the header a multiple of `sizeof(T)`)
construction succeeds on an aligned suffix and yields exactly `n`
elements; a debug build aborts when the header is not a multiple of
`sizeof(T)` — that check exists only there; construction aborts on any
misaligned suffix, and on any region whose non-header suffix length is not
an exact multiple of `sizeof(T)`. -/
theorem C7_slice_construction (sizeT alignT base header n : Nat) (mmap : Bytes)
    (hs : 0 < sizeT) (hlen : mmap.length = n * sizeT + header) :
    (align_offset (base + header) alignT = 0 →
      mmap_to_slice_unbounded sizeT alignT false base mmap header =
        some (chunkBytes sizeT (mmap.drop header))
      ∧ (chunkBytes sizeT (mmap.drop header)).length = n)
    ∧ (align_offset (base + header) alignT = 0 → header % sizeT = 0 →
      mmap_to_slice_unbounded sizeT alignT true base mmap header =
        some (chunkBytes sizeT (mmap.drop header)))
    ∧ (align_offset (base + header) alignT = 0 → header % sizeT ≠ 0 →
      mmap_to_slice_unbounded sizeT alignT true base mmap header = none)
    ∧ (align_offset (base + header) alignT ≠ 0 →
      ∀ debug, mmap_to_slice_unbounded sizeT alignT debug base mmap header = none)
    ∧ (∀ debug (bytes2 : Bytes) header2, header2 ≤ bytes2.length →
        (bytes2.length - header2) % sizeT ≠ 0 →
        mmap_to_slice_unbounded sizeT alignT debug base bytes2 header2 = none) := by
  have hh : ¬ header > mmap.length := by omega
  have hdroplen : (mmap.drop header).length = n * sizeT := by
    simp only [List.length_drop, hlen]
    omega
  have hmod : (mmap.length - header) % sizeT = 0 := by
    have hsub : mmap.length - header = n * sizeT := by omega
    rw [hsub]
    exact Nat.mul_mod_left n sizeT
  refine ⟨?_, ?_, ?_, ?_, ?_⟩
  · intro hal
    constructor
    · unfold mmap_to_slice_unbounded
      rw [if_neg hh, if_neg (by simp [hal]), if_neg (by simp), if_neg (by simp [hmod])]
    · exact chunkBytes_length sizeT hs n _ hdroplen
  · intro hal hhm
    unfold mmap_to_slice_unbounded
    rw [if_neg hh, if_neg (by simp [hal]), if_neg (by simp [hhm]),
      if_neg (by simp [hmod])]
  · intro hal hhm
    unfold mmap_to_slice_unbounded
    rw [if_neg hh, if_neg (by simp [hal]), if_pos (by simp [hhm])]
  · intro hal debug
    unfold mmap_to_slice_unbounded
    rw [if_neg hh, if_pos (by simpa using hal)]
  · intro debug bytes2 header2 hle hnm
    unfold mmap_to_slice_unbounded
    rw [if_neg (by omega)]
    by_cases hal : align_offset (base + header2) alignT = 0
    · rw [if_neg (by simp [hal])]
      by_cases hdb : debug = true ∧ header2 % sizeT ≠ 0
      · rw [if_pos hdb]
      · rw [if_neg hdb, if_pos (by simpa [List.length_drop] using hnm)]
    · rw [if_pos (by simpa using hal)]

/-- Claim C7 witness: a region of 12 bytes viewed as elements of size 4
past a 4-byte header yields exactly 2 elements in a release build. -/
theorem C7_slice_construction_witness :
    mmap_to_slice_unbounded 4 4 false 0 (List.replicate 12 0) 4 =
      some (chunkBytes 4 ((List.replicate 12 0).drop 4))
    ∧ (chunkBytes 4 ((List.replicate 12 0).drop 4)).length = 2 :=
  (C7_slice_construction 4 4 0 4 2 (List.replicate 12 0) (by decide)
    (by decide)).1 (by decide)

/-! ### Word and byte encoding lemmas for the bit view -/

theorem word_le_bytes_length (k w : Nat) : (word_le_bytes k w).length = k := by
  induction k generalizing w with
  | zero => rfl
  | succ j ih => simp [word_le_bytes, ih]

theorem le_word_word_le_bytes (k w : Nat) (h : w < 256 ^ k) :
    le_word (word_le_bytes k w) = w := by
  induction k generalizing w with
  | zero =>
    have : w = 0 := by simpa using h
    subst this
    rfl
  | succ j ih =>
    have hdiv : w / 256 < 256 ^ j := by
      rw [Nat.div_lt_iff_lt_mul (by norm_num)]
      calc w < 256 ^ (j + 1) := h
        _ = 256 ^ j * 256 := by ring
    simp only [word_le_bytes, le_word, ih _ hdiv]
    exact Nat.mod_add_div w 256

theorem le_word_lt (bs : Bytes) (h : ∀ b ∈ bs, b < 256) :
    le_word bs < 256 ^ bs.length := by
  induction bs with
  | nil => simp [le_word]
  | cons b bs ih =>
    have hb : b < 256 := h b (List.mem_cons_self b bs)
    have hrest : le_word bs < 256 ^ bs.length :=
      ih fun x hx => h x (List.mem_cons_of_mem b hx)
    simp only [le_word, List.length_cons]
    calc b + 256 * le_word bs < 256 + 256 * le_word bs := by omega
      _ = 256 * (le_word bs + 1) := by ring
      _ ≤ 256 * 256 ^ bs.length := by
          exact Nat.mul_le_mul_left 256 hrest
      _ = 256 ^ (bs.length + 1) := by ring

theorem chunkBytes_mem_length (s : Nat) (hs : 0 < s) :
    ∀ n (l : Bytes), l.length = n * s → ∀ c ∈ chunkBytes s l, c.length = s := by
  intro n
  induction n with
  | zero =>
    intro l hl c hc
    have : l = [] := List.eq_nil_of_length_eq_zero (by simpa using hl)
    subst this
    rw [chunkBytes_nil] at hc
    exact absurd hc (List.not_mem_nil c)
  | succ k ih =>
    intro l hl c hc
    cases l with
    | nil =>
      exfalso
      simp only [List.length_nil] at hl
      have : 0 < (k + 1) * s := Nat.mul_pos (Nat.succ_pos k) hs
      omega
    | cons x xs =>
      rw [chunkBytes_cons_eq s (Nat.pos_iff_ne_zero.mp hs)] at hc
      have hlen : (x :: xs).length = (k + 1) * s := hl
      rcases List.mem_cons.mp hc with h | h
      · subst h
        simp only [List.length_take, List.length_cons]
        have : s ≤ xs.length + 1 := by
          have := hlen
          simp only [List.length_cons] at this
          rw [this, Nat.succ_mul]
          omega
        simp only [List.length_cons] at this ⊢
        omega
      · have hdrop : ((x :: xs).drop s).length = k * s := by
          simp only [List.length_drop, List.length_cons]
          simp only [List.length_cons] at hlen
          rw [hlen, Nat.succ_mul]
          omega
        exact ih _ hdrop c h

theorem chunkBytes_mem_mem (s : Nat) (l : Bytes) :
    ∀ c ∈ chunkBytes s l, ∀ b ∈ c, b ∈ l := by
  generalize hn : l.length = n
  induction n using Nat.strong_induction_on generalizing l with
  | _ n ih =>
    cases l with
    | nil =>
      intro c hc
      rw [chunkBytes_nil] at hc
      exact absurd hc (List.not_mem_nil c)
    | cons x xs =>
      intro c hc b hb
      by_cases hs : s = 0
      · subst hs
        rw [chunkBytes] at hc
        simp at hc
      · rw [chunkBytes_cons_eq s hs] at hc
        rcases List.mem_cons.mp hc with h | h
        · subst h
          exact List.take_subset s (x :: xs) hb
        · have hlt : ((x :: xs).drop s).length < n := by
            subst hn
            simp only [List.length_drop, List.length_cons]
            omega
          exact List.drop_subset s (x :: xs)
            (ih _ hlt ((x :: xs).drop s) rfl c h b hb)

theorem flatten_length_uniform (s : Nat) (L : List Bytes)
    (h : ∀ c ∈ L, c.length = s) : L.flatten.length = L.length * s := by
  induction L with
  | nil => simp
  | cons c cs ih =>
    simp only [List.flatten_cons, List.length_append, List.length_cons,
      h c (List.mem_cons_self c cs),
      ih fun d hd => h d (List.mem_cons_of_mem c hd)]
    ring

/-! ### Bit get/set lemmas -/

theorem testBit_set_bit_word_self (w r : Nat) (b : Bool) :
    Nat.testBit (set_bit_word w r b) r = b := by
  cases b with
  | true =>
    rw [set_bit_word, if_pos rfl, Nat.testBit_lor]
    simp [Nat.testBit_two_pow_self]
  | false =>
    rw [set_bit_word, if_neg (by simp), Nat.testBit_ldiff]
    simp [Nat.testBit_two_pow_self]

theorem testBit_set_bit_word_ne (w r r' : Nat) (b : Bool) (h : r' ≠ r) :
    Nat.testBit (set_bit_word w r b) r' = Nat.testBit w r' := by
  cases b with
  | true =>
    rw [set_bit_word, if_pos rfl, Nat.testBit_lor,
      Nat.testBit_two_pow_of_ne (Ne.symm h)]
    simp
  | false =>
    rw [set_bit_word, if_neg (by simp), Nat.testBit_ldiff,
      Nat.testBit_two_pow_of_ne (Ne.symm h)]
    simp

theorem set_bit_word_lt (w r : Nat) (b : Bool) (hw : w < 2 ^ 64)
    (hr : r < 64) : set_bit_word w r b < 2 ^ 64 := by
  cases b with
  | true =>
    rw [set_bit_word, if_pos rfl]
    exact Nat.or_lt_two_pow hw (Nat.pow_lt_pow_right (by norm_num) hr)
  | false =>
    rw [set_bit_word, if_neg (by simp)]
    have hle : Nat.ldiff w (2 ^ r) ≤ w := by
      apply Nat.le_of_testBit
      intro i hi
      rw [Nat.testBit_ldiff] at hi
      exact (Bool.and_eq_true _ _ |>.mp hi).1
    omega

theorem bit_get_bit_set_self (ws : List Nat) (i : Nat) (b : Bool)
    (h : i / USIZE_BITS < ws.length) :
    bit_get (bit_set ws i b) i = b := by
  unfold bit_get bit_set
  rw [List.getD_eq_getElem?_getD, List.getElem?_set_self (by simpa using h),
    Option.getD_some, testBit_set_bit_word_self]

theorem bit_get_bit_set_ne (ws : List Nat) (i j : Nat) (b : Bool)
    (h : j ≠ i) : bit_get (bit_set ws i b) j = bit_get ws j := by
  unfold bit_get bit_set
  by_cases hdiv : j / USIZE_BITS = i / USIZE_BITS
  · have hmod : j % USIZE_BITS ≠ i % USIZE_BITS := by
      intro hm
      apply h
      have hj := Nat.div_add_mod j 64
      have hi := Nat.div_add_mod i 64
      have e : USIZE_BITS = 64 := rfl
      rw [e] at hdiv hm
      omega
    rw [hdiv]
    by_cases hlen : i / USIZE_BITS < ws.length
    · rw [List.getD_eq_getElem?_getD,
        List.getElem?_set_self (by simpa using hlen), Option.getD_some,
        testBit_set_bit_word_ne _ _ _ _ hmod]
    · rw [List.set_eq_of_length_le (by omega)]
  · rw [List.getD_eq_getElem?_getD, List.getElem?_set_ne (Ne.symm hdiv),
      ← List.getD_eq_getElem?_getD]

theorem write_bits_length (f : Nat → Bool) (n : Nat) (ws : List Nat) :
    (write_bits f n ws).length = ws.length := by
  induction n with
  | zero => rfl
  | succ k ih =>
    simp only [write_bits, bit_set, List.length_set, ih]

theorem write_bits_get (f : Nat → Bool) (n : Nat) (ws : List Nat)
    (hn : n ≤ USIZE_BITS * ws.length) :
    ∀ i, i < n → bit_get (write_bits f n ws) i = f i := by
  induction n with
  | zero => intro i hi; omega
  | succ k ih =>
    intro i hi
    simp only [write_bits]
    by_cases hik : i = k
    · subst hik
      have hlen : i / USIZE_BITS < (write_bits f i ws).length := by
        rw [write_bits_length]
        have : i < ws.length * USIZE_BITS := by
          have : USIZE_BITS * ws.length = ws.length * USIZE_BITS :=
            Nat.mul_comm _ _
          omega
        exact (Nat.div_lt_iff_lt_mul (by norm_num [USIZE_BITS])).mpr this
      exact bit_get_bit_set_self _ i (f i) hlen
    · rw [bit_get_bit_set_ne _ _ _ _ hik]
      exact ih (by omega) i (by omega)

theorem write_bits_mem_lt (f : Nat → Bool) (n : Nat) (ws : List Nat)
    (hws : ∀ w ∈ ws, w < 2 ^ 64) :
    ∀ w ∈ write_bits f n ws, w < 2 ^ 64 := by
  induction n with
  | zero => exact hws
  | succ k ih =>
    intro w hw
    simp only [write_bits, bit_set] at hw
    rcases List.mem_or_eq_of_mem_set hw with h | h
    · exact ih w h
    · subst h
      apply set_bit_word_lt
      · by_cases hlen : k / USIZE_BITS < (write_bits f k ws).length
        · rw [List.getD_eq_getElem _ _ hlen]
          exact ih _ (List.getElem_mem hlen)
        · rw [List.getD_eq_getElem?_getD, List.getElem?_eq_none (by omega)]
          simp only [Option.getD_none]
          positivity
      · exact Nat.mod_lt k (by norm_num [USIZE_BITS])

/-! ### Construction inversion and the words-to-bytes round trip -/

theorem mmap_to_slice_unbounded_inv (sizeT alignT : Nat) (debug : Bool)
    (base : Nat) (mmap : Bytes) (header : Nat) (l : List Bytes)
    (h : mmap_to_slice_unbounded sizeT alignT debug base mmap header = some l) :
    header ≤ mmap.length
    ∧ align_offset (base + header) alignT = 0
    ∧ ¬(debug = true ∧ header % sizeT ≠ 0)
    ∧ (mmap.length - header) % sizeT = 0
    ∧ l = chunkBytes sizeT (mmap.drop header) := by
  unfold mmap_to_slice_unbounded at h
  by_cases h1 : header > mmap.length
  · rw [if_pos h1] at h
    exact Option.noConfusion h
  · rw [if_neg h1] at h
    by_cases h2 : align_offset (base + header) alignT ≠ 0
    · rw [if_pos h2] at h
      exact Option.noConfusion h
    · rw [if_neg h2] at h
      by_cases h3 : debug = true ∧ header % sizeT ≠ 0
      · rw [if_pos h3] at h
        exact Option.noConfusion h
      · rw [if_neg h3] at h
        by_cases h4 : (mmap.drop header).length % sizeT ≠ 0
        · rw [if_pos h4] at h
          exact Option.noConfusion h
        · rw [if_neg h4] at h
          refine ⟨by omega, not_ne_iff.mp h2, h3, ?_, ?_⟩
          · rw [not_ne_iff] at h4
            simpa [List.length_drop] using h4
          · exact (Option.some.inj h).symm

theorem mmap_bitslice_from_inv (debug : Bool) (base : Nat) (mmap : Bytes)
    (header : Nat) (ws0 : List Nat)
    (h : mmap_bitslice_from debug base mmap header = some ws0) :
    header ≤ mmap.length
    ∧ align_offset (base + header) USIZE_BYTES = 0
    ∧ ¬(debug = true ∧ header % USIZE_BYTES ≠ 0)
    ∧ (mmap.length - header) % USIZE_BYTES = 0
    ∧ ws0 = (chunkBytes USIZE_BYTES (mmap.drop header)).map le_word := by
  unfold mmap_bitslice_from at h
  cases hinner : mmap_to_slice_unbounded USIZE_BYTES USIZE_BYTES debug base
      mmap header with
  | none => rw [hinner] at h; exact absurd h (by simp)
  | some l =>
    rw [hinner] at h
    have h' : l.map le_word = ws0 := by
      have hmap : Option.map (List.map le_word) (some l) =
          some (l.map le_word) := rfl
      rw [hmap] at h
      exact Option.some.inj h
    obtain ⟨hh, hal, hdbg, hsuf, hl⟩ :=
      mmap_to_slice_unbounded_inv _ _ _ _ _ _ _ hinner
    exact ⟨hh, hal, hdbg, hsuf, by rw [← h', hl]⟩

theorem map_le_word_round (ws : List Nat) (h : ∀ w ∈ ws, w < 2 ^ 64) :
    (chunkBytes USIZE_BYTES
        ((ws.map (word_le_bytes USIZE_BYTES)).flatten)).map le_word = ws := by
  rw [chunkBytes_flatten USIZE_BYTES (by norm_num [USIZE_BYTES])
    (ws.map (word_le_bytes USIZE_BYTES))
    (by
      intro c hc
      obtain ⟨w, _, rfl⟩ := List.mem_map.mp hc
      exact word_le_bytes_length USIZE_BYTES w)]
  rw [List.map_map]
  conv_rhs => rw [← List.map_id ws]
  apply List.map_congr_left
  intro w hw
  have hlt : w < 256 ^ USIZE_BYTES := by
    have : (256 : Nat) ^ USIZE_BYTES = 2 ^ 64 := by norm_num [USIZE_BYTES]
    rw [this]
    exact h w hw
  exact le_word_word_le_bytes USIZE_BYTES w hlt

/-- Claim C9: round trips through the views. Sequence view: writing a
fixed-length sequence of values through `copy_from_slice`, closing the file
(byte-for-byte persistence) and constructing a new view over the same bytes
reads back an equal sequence. Bit view: for a region opened with a given
header size, writing any bitstring through `set`, writing the words back to
the file and reopening with the same header size yields the very same
words, and every written bit reads back with the value written. -/
theorem C9_round_trip :
    (∀ (sizeT alignT base : Nat) (debug : Bool) (template : List Bytes),
      0 < sizeT → align_offset base alignT = 0 →
      (∀ v ∈ template, v.length = sizeT) →
      mmap_slice_from sizeT alignT debug base (copy_from_slice template) =
        some template)
    ∧ (∀ (debug : Bool) (base header : Nat) (mmap : Bytes) (f : Nat → Bool)
        (n : Nat) (ws0 : List Nat),
      (∀ b ∈ mmap, b < 256) →
      mmap_bitslice_from debug base mmap header = some ws0 →
      n ≤ USIZE_BITS * ws0.length →
      mmap_bitslice_from debug base
          (persist_bits (mmap.take header) (write_bits f n ws0)) header =
        some (write_bits f n ws0)
      ∧ ∀ i, i < n → bit_get (write_bits f n ws0) i = f i) := by
  constructor
  · intro sizeT alignT base debug template hs hal hlen
    unfold mmap_slice_from mmap_to_slice_unbounded copy_from_slice
    have hflat : template.flatten.length = template.length * sizeT :=
      flatten_length_uniform sizeT template hlen
    rw [if_neg (by omega), if_neg (by simpa using hal),
      if_neg (fun hc => hc.2 (Nat.zero_mod sizeT)),
      if_neg (by
        simp only [List.drop_zero, hflat, ne_eq, Nat.mul_mod_left,
          not_true_eq_false, not_false_eq_true])]
    simp only [List.drop_zero]
    rw [chunkBytes_flatten sizeT hs template hlen]
  · intro debug base header mmap f n ws0 hb hcons hn
    obtain ⟨hh, hal, hdbg, hsuf, hws0⟩ :=
      mmap_bitslice_from_inv debug base mmap header ws0 hcons
    have hdroplen : (mmap.drop header).length =
        ((mmap.length - header) / USIZE_BYTES) * USIZE_BYTES := by
      rw [List.length_drop]
      exact (Nat.div_mul_cancel (Nat.dvd_of_mod_eq_zero hsuf)).symm
    have hchunklen : ∀ c ∈ chunkBytes USIZE_BYTES (mmap.drop header),
        c.length = USIZE_BYTES :=
      chunkBytes_mem_length USIZE_BYTES (by norm_num [USIZE_BYTES]) _ _ hdroplen
    have hws0bound : ∀ w ∈ ws0, w < 2 ^ 64 := by
      subst hws0
      intro w hw
      obtain ⟨c, hc, rfl⟩ := List.mem_map.mp hw
      have hcb : ∀ b' ∈ c, b' < 256 := fun b' hb' =>
        hb b' (List.drop_subset header mmap
          (chunkBytes_mem_mem USIZE_BYTES (mmap.drop header) c hc b' hb'))
      have := le_word_lt c hcb
      rw [hchunklen c hc] at this
      calc le_word c < 256 ^ USIZE_BYTES := this
        _ = 2 ^ 64 := by norm_num [USIZE_BYTES]
    have hwsbound : ∀ w ∈ write_bits f n ws0, w < 2 ^ 64 :=
      write_bits_mem_lt f n ws0 hws0bound
    have htklen : (mmap.take header).length = header := by
      rw [List.length_take]
      omega
    have hflatlen :
        ((write_bits f n ws0).map (word_le_bytes USIZE_BYTES)).flatten.length =
          (write_bits f n ws0).length * USIZE_BYTES := by
      rw [flatten_length_uniform USIZE_BYTES _ (by
        intro c hc
        obtain ⟨w, _, rfl⟩ := List.mem_map.mp hc
        exact word_le_bytes_length USIZE_BYTES w), List.length_map]
    have hdropnew :
        (mmap.take header ++
          ((write_bits f n ws0).map (word_le_bytes USIZE_BYTES)).flatten).drop
            header =
          ((write_bits f n ws0).map (word_le_bytes USIZE_BYTES)).flatten := by
      have := List.drop_left (mmap.take header)
        ((write_bits f n ws0).map (word_le_bytes USIZE_BYTES)).flatten
      rw [htklen] at this
      exact this
    constructor
    · unfold mmap_bitslice_from mmap_to_slice_unbounded persist_bits
      rw [if_neg (by
          simp only [List.length_append, htklen, hflatlen]
          omega),
        if_neg (by simpa using hal),
        if_neg hdbg,
        if_neg (by
          simp only [List.length_drop, List.length_append, htklen, hflatlen]
          have : header + (write_bits f n ws0).length * USIZE_BYTES - header =
              (write_bits f n ws0).length * USIZE_BYTES := by omega
          rw [this]
          simp [Nat.mul_mod_left])]
      rw [hdropnew]
      rw [show Option.map (List.map le_word)
          (some (chunkBytes USIZE_BYTES
            ((write_bits f n ws0).map (word_le_bytes USIZE_BYTES)).flatten)) =
          some ((chunkBytes USIZE_BYTES
            ((write_bits f n ws0).map
              (word_le_bytes USIZE_BYTES)).flatten).map le_word) from rfl]
      rw [map_le_word_round (write_bits f n ws0) hwsbound]
    · exact write_bits_get f n ws0 hn

/-- Claim C9 witness: a two-element sequence of 2-byte values round-trips
through the sequence view, and after writing bits 0..9 of the pattern
"bit 3 only" into a bit view over a 16-byte file with an 8-byte header,
reopening with the same header yields the same words and bit 3 reads true. -/
theorem C9_round_trip_witness :
    mmap_slice_from 2 2 false 0 (copy_from_slice [[1, 2], [3, 4]]) =
      some [[1, 2], [3, 4]]
    ∧ mmap_bitslice_from false 0
        (persist_bits ((List.replicate 16 0).take 8)
          (write_bits (fun i => i == 3) 10 [0])) 8 =
        some (write_bits (fun i => i == 3) 10 [0])
    ∧ bit_get (write_bits (fun i => i == 3) 10 [0]) 3 = true := by
  have hchunk : chunkBytes 8 [0, 0, 0, 0, 0, 0, 0, 0] =
      [[0, 0, 0, 0, 0, 0, 0, 0]] := by
    have h0 := chunkBytes_exact 8 (by norm_num) [0, 0, 0, 0, 0, 0, 0, 0]
      (by decide) []
    simpa [chunkBytes_nil] using h0
  have hbase : mmap_bitslice_from false 0 (List.replicate 16 0) 8 =
      some [0] := by
    unfold mmap_bitslice_from mmap_to_slice_unbounded
    rw [if_neg (by decide), if_neg (by decide), if_neg (by decide),
      if_neg (by decide)]
    rw [show (List.replicate 16 (0 : Nat)).drop 8 = [0, 0, 0, 0, 0, 0, 0, 0]
      from rfl]
    rw [show USIZE_BYTES = 8 from rfl, hchunk]
    rfl
  refine ⟨?_, ?_, ?_⟩
  · exact C9_round_trip.1 2 2 0 false [[1, 2], [3, 4]] (by decide) (by decide)
      (by decide)
  · exact (C9_round_trip.2 false 0 8 (List.replicate 16 0) (fun i => i == 3)
      10 [0] (by decide) hbase (by decide)).1
  · exact (C9_round_trip.2 false 0 8 (List.replicate 16 0) (fun i => i == 3)
      10 [0] (by decide) hbase (by decide)).2 3 (by decide)

end Qdrant
